import Mathlib

/-!
# bitcoin-address: derivation of a Base58Check address from an ECDSA public key

A shallow embedding of `src/bitcoin-address.go` (function `main`).  Byte
slices are lists of naturals (every byte written by the program is below
256), big integers are naturals, and the local variables of `main` keep
their names (`comb1`, `digest2`, `digest3`, `v4`, `digest5`, `digest6`,
`checksum`, `comb8`, `address`).

The two digests are library functions (`crypto/sha256`,
`golang.org/x/crypto/ripemd160`).  The pipeline is parametric in them
(`Digests`), and `stdDigests` instantiates the parameter with SHA-256 and
RIPEMD-160 written out from their standards.
-/

namespace BitcoinAddress

/-! ## Go builtins used by `main` -/

/-- Little-endian base-256 digits of `n`, `fuel` bounding the number of
digits produced. -/
def bytesLE : Nat → Nat → List Nat
  | 0, _ => []
  | fuel + 1, n => if n = 0 then [] else (n % 256) :: bytesLE fuel (n / 256)

/-- Go `(*big.Int).Bytes`: the minimal big-endian byte slice of a
non-negative integer; zero gives the empty slice. -/
def Bytes (n : Nat) : List Nat := (bytesLE n n).reverse

/-- Go `make([]byte, n)`: `n` zero bytes. -/
def make (n : Nat) : List Nat := List.replicate n 0

/-- Go builtin `copy(dst, src)`: overwrites the first
`min (len dst) (len src)` bytes of `dst` with the first bytes of `src` and
leaves the rest of `dst` as it was.  The result is the new content of
`dst`. -/
def copy (dst src : List Nat) : List Nat :=
  src.take dst.length ++ dst.drop src.length

/-- Go `copy(buf[lo:hi], src)` seen from `buf`: the window `buf[lo:hi]` is
overwritten by `copy`, the bytes outside the window are untouched. -/
def copyInto (buf : List Nat) (lo hi : Nat) (src : List Nat) : List Nat :=
  buf.take lo ++ copy ((buf.drop lo).take (hi - lo)) src ++ buf.drop hi

/-- Go slice expression `buf[lo:hi]`. -/
def slice (buf : List Nat) (lo hi : Nat) : List Nat :=
  (buf.drop lo).take (hi - lo)

/-! ## The digests -/

/-- The two library digests with their documented output sizes
(`sha256.Size = 32`, `ripemd160.Size = 20`). -/
structure Digests where
  sha256 : List Nat → List Nat
  ripemd160 : List Nat → List Nat
  sha256_size : ∀ b, (sha256 b).length = 32
  ripemd160_size : ∀ b, (ripemd160 b).length = 20

/-- Go `hash.Hash`: a digest function and the bytes written so far. -/
structure Hash where
  digest : List Nat → List Nat
  written : List Nat

/-- Go `sha256.New()`. -/
def Digests.sha256New (H : Digests) : Hash := ⟨H.sha256, []⟩

/-- Go `ripemd160.New()`. -/
def Digests.ripemd160New (H : Digests) : Hash := ⟨H.ripemd160, []⟩

/-- Go `h.Write(p)`: appends `p` to the data to be hashed. -/
def Hash.Write (h : Hash) (p : List Nat) : Hash :=
  { h with written := h.written ++ p }

/-- Go `h.Sum(b)`: appends the digest of the written data to `b`
(`nil` is the empty list). -/
def Hash.Sum (h : Hash) (b : List Nat) : List Nat :=
  b ++ h.digest h.written

/-! ## Keys -/

/-- Go `ecdsa.PublicKey`: the two affine coordinates. -/
structure PublicKey where
  X : Nat
  Y : Nat
deriving DecidableEq, Repr

/-- Go `ecdsa.PrivateKey`: the public key and the private scalar `D`. -/
structure PrivateKey where
  PublicKey : PublicKey
  D : Nat
deriving DecidableEq, Repr

/-- Prime of the field of the curve `elliptic.P256()`. -/
def p256P : Nat := 2 ^ 256 - 2 ^ 224 + 2 ^ 192 + 2 ^ 96 - 1

/-- Coefficient `b` of the curve `elliptic.P256()`,
`y² = x³ - 3x + b (mod p)`. -/
def p256B : Nat :=
  0x5ac635d8aa3a93e7b3ebbd55769886bc651d06b0cc53b0f63bce3c3e27d2604b

/-- The point `(X, Y)` is an affine point of `elliptic.P256()`: the curve
has prime order, so every such point is the public key of a private
scalar. -/
def onP256 (k : PublicKey) : Bool :=
  decide (k.X < p256P) && decide (k.Y < p256P) &&
    decide ((k.Y * k.Y + 3 * k.X) % p256P = (k.X * k.X * k.X + p256B) % p256P)

/-! ## SHA-256 (FIPS 180-4) and RIPEMD-160 -/

/-- Addition of 32-bit words. -/
def add32 (x y : Nat) : Nat := (x + y) % 2 ^ 32

/-- Rotation of a 32-bit word to the right by `n` bits. -/
def rotr32 (x n : Nat) : Nat := ((x >>> n) ||| (x <<< (32 - n))) % 2 ^ 32

/-- Rotation of a 32-bit word to the left by `n` bits. -/
def rotl32 (x n : Nat) : Nat := ((x <<< n) ||| (x >>> (32 - n))) % 2 ^ 32

/-- Bitwise complement of a 32-bit word. -/
def not32 (x : Nat) : Nat := (2 ^ 32 - 1) ^^^ (x % 2 ^ 32)

/-- The four bytes of a 32-bit word, most significant first. -/
def wordBE (x : Nat) : List Nat :=
  [x / 2 ^ 24 % 256, x / 2 ^ 16 % 256, x / 2 ^ 8 % 256, x % 256]

/-- The four bytes of a 32-bit word, least significant first. -/
def wordLE (x : Nat) : List Nat :=
  [x % 256, x / 2 ^ 8 % 256, x / 2 ^ 16 % 256, x / 2 ^ 24 % 256]

/-- The eight bytes of a 64-bit length, most significant first. -/
def lengthBE (n : Nat) : List Nat := wordBE (n / 2 ^ 32) ++ wordBE n

/-- The eight bytes of a 64-bit length, least significant first. -/
def lengthLE (n : Nat) : List Nat := wordLE n ++ wordLE (n / 2 ^ 32)

/-- Number of zero bytes of the padding: after the byte `0x80` the message
is filled to 56 bytes modulo 64. -/
def padZeros (len : Nat) : Nat := (119 - len % 64) % 64

/-- Cuts a padded message into blocks of sixteen 32-bit words, each word
read from four bytes by `word`. -/
def blocks (word : Nat → Nat → Nat → Nat → Nat) : Nat → List Nat → List (List Nat)
  | 0, _ => []
  | n + 1, bs =>
    ((List.range 16).map fun i =>
        word (bs.getD (4 * i) 0) (bs.getD (4 * i + 1) 0) (bs.getD (4 * i + 2) 0)
          (bs.getD (4 * i + 3) 0)) :: blocks word n (bs.drop 64)

namespace SHA256

def K : List Nat := [
  0x428a2f98, 0x71374491, 0xb5c0fbcf, 0xe9b5dba5, 0x3956c25b, 0x59f111f1, 0x923f82a4, 0xab1c5ed5,
  0xd807aa98, 0x12835b01, 0x243185be, 0x550c7dc3, 0x72be5d74, 0x80deb1fe, 0x9bdc06a7, 0xc19bf174,
  0xe49b69c1, 0xefbe4786, 0x0fc19dc6, 0x240ca1cc, 0x2de92c6f, 0x4a7484aa, 0x5cb0a9dc, 0x76f988da,
  0x983e5152, 0xa831c66d, 0xb00327c8, 0xbf597fc7, 0xc6e00bf3, 0xd5a79147, 0x06ca6351, 0x14292967,
  0x27b70a85, 0x2e1b2138, 0x4d2c6dfc, 0x53380d13, 0x650a7354, 0x766a0abb, 0x81c2c92e, 0x92722c85,
  0xa2bfe8a1, 0xa81a664b, 0xc24b8b70, 0xc76c51a3, 0xd192e819, 0xd6990624, 0xf40e3585, 0x106aa070,
  0x19a4c116, 0x1e376c08, 0x2748774c, 0x34b0bcb5, 0x391c0cb3, 0x4ed8aa4a, 0x5b9cca4f, 0x682e6ff3,
  0x748f82ee, 0x78a5636f, 0x84c87814, 0x8cc70208, 0x90befffa, 0xa4506ceb, 0xbef9a3f7, 0xc67178f2]

/-- The eight working words. -/
structure State where
  a : Nat
  b : Nat
  c : Nat
  d : Nat
  e : Nat
  f : Nat
  g : Nat
  h : Nat

def init : State :=
  ⟨0x6a09e667, 0xbb67ae85, 0x3c6ef372, 0xa54ff53a, 0x510e527f, 0x9b05688c, 0x1f83d9ab,
    0x5be0cd19⟩

def pad (msg : List Nat) : List Nat :=
  msg.map (· % 256) ++ [0x80] ++ List.replicate (padZeros msg.length) 0 ++
    lengthBE (8 * msg.length)

def word (b0 b1 b2 b3 : Nat) : Nat := ((b0 * 256 + b1) * 256 + b2) * 256 + b3

def sigma0 (x : Nat) : Nat := rotr32 x 7 ^^^ rotr32 x 18 ^^^ (x >>> 3)
def sigma1 (x : Nat) : Nat := rotr32 x 17 ^^^ rotr32 x 19 ^^^ (x >>> 10)
def Sigma0 (x : Nat) : Nat := rotr32 x 2 ^^^ rotr32 x 13 ^^^ rotr32 x 22
def Sigma1 (x : Nat) : Nat := rotr32 x 6 ^^^ rotr32 x 11 ^^^ rotr32 x 25
def Ch (x y z : Nat) : Nat := (x &&& y) ^^^ (not32 x &&& z)
def Maj (x y z : Nat) : Nat := (x &&& y) ^^^ (x &&& z) ^^^ (y &&& z)

/-- Message schedule: extends the sixteen words of a block by `n` words. -/
def schedule : Nat → List Nat → List Nat
  | 0, w => w
  | n + 1, w =>
    let t := w.length
    schedule n (w ++ [add32 (add32 (sigma1 (w.getD (t - 2) 0)) (w.getD (t - 7) 0))
      (add32 (sigma0 (w.getD (t - 15) 0)) (w.getD (t - 16) 0))])

def round (s : State) (kw : Nat × Nat) : State :=
  let t1 := add32 (add32 (add32 s.h (Sigma1 s.e)) (add32 (Ch s.e s.f s.g) kw.1)) kw.2
  let t2 := add32 (Sigma0 s.a) (Maj s.a s.b s.c)
  ⟨add32 t1 t2, s.a, s.b, s.c, add32 s.d t1, s.e, s.f, s.g⟩

def compress (s : State) (block : List Nat) : State :=
  let r := (K.zip (schedule 48 block)).foldl round s
  ⟨add32 s.a r.a, add32 s.b r.b, add32 s.c r.c, add32 s.d r.d, add32 s.e r.e, add32 s.f r.f,
    add32 s.g r.g, add32 s.h r.h⟩

def output (s : State) : List Nat :=
  wordBE s.a ++ wordBE s.b ++ wordBE s.c ++ wordBE s.d ++ wordBE s.e ++ wordBE s.f ++
    wordBE s.g ++ wordBE s.h

/-- SHA-256 of a byte string. -/
def sum (msg : List Nat) : List Nat :=
  let p := pad msg
  output ((blocks word (p.length / 64) p).foldl compress init)

end SHA256

namespace RIPEMD160

def rL : List Nat := [
  0, 1, 2, 3, 4, 5, 6, 7, 8, 9, 10, 11, 12, 13, 14, 15,
  7, 4, 13, 1, 10, 6, 15, 3, 12, 0, 9, 5, 2, 14, 11, 8,
  3, 10, 14, 4, 9, 15, 8, 1, 2, 7, 0, 6, 13, 11, 5, 12,
  1, 9, 11, 10, 0, 8, 12, 4, 13, 3, 7, 15, 14, 5, 6, 2,
  4, 0, 5, 9, 7, 12, 2, 10, 14, 1, 3, 8, 11, 6, 15, 13]

def rR : List Nat := [
  5, 14, 7, 0, 9, 2, 11, 4, 13, 6, 15, 8, 1, 10, 3, 12,
  6, 11, 3, 7, 0, 13, 5, 10, 14, 15, 8, 12, 4, 9, 1, 2,
  15, 5, 1, 3, 7, 14, 6, 9, 11, 8, 12, 2, 10, 0, 4, 13,
  8, 6, 4, 1, 3, 11, 15, 0, 5, 12, 2, 13, 9, 7, 10, 14,
  12, 15, 10, 4, 1, 5, 8, 7, 6, 2, 13, 14, 0, 3, 9, 11]

def sL : List Nat := [
  11, 14, 15, 12, 5, 8, 7, 9, 11, 13, 14, 15, 6, 7, 9, 8,
  7, 6, 8, 13, 11, 9, 7, 15, 7, 12, 15, 9, 11, 7, 13, 12,
  11, 13, 6, 7, 14, 9, 13, 15, 14, 8, 13, 6, 5, 12, 7, 5,
  11, 12, 14, 15, 14, 15, 9, 8, 9, 14, 5, 6, 8, 6, 5, 12,
  9, 15, 5, 11, 6, 8, 13, 12, 5, 12, 13, 14, 11, 8, 5, 6]

def sR : List Nat := [
  8, 9, 9, 11, 13, 15, 15, 5, 7, 7, 8, 11, 14, 14, 12, 6,
  9, 13, 15, 7, 12, 8, 9, 11, 7, 7, 12, 7, 6, 15, 13, 11,
  9, 7, 15, 11, 8, 6, 6, 14, 12, 13, 5, 14, 13, 13, 7, 5,
  15, 5, 8, 11, 14, 14, 6, 14, 6, 9, 12, 9, 12, 5, 15, 8,
  8, 5, 12, 9, 12, 5, 14, 6, 8, 13, 6, 5, 15, 13, 11, 11]

def KL : List Nat := [0x00000000, 0x5a827999, 0x6ed9eba1, 0x8f1bbcdc, 0xa953fd4e]
def KR : List Nat := [0x50a28be6, 0x5c4dd124, 0x6d703ef3, 0x7a6d76e9, 0x00000000]

/-- The five chaining words. -/
structure State where
  a : Nat
  b : Nat
  c : Nat
  d : Nat
  e : Nat

def init : State := ⟨0x67452301, 0xefcdab89, 0x98badcfe, 0x10325476, 0xc3d2e1f0⟩

def pad (msg : List Nat) : List Nat :=
  msg.map (· % 256) ++ [0x80] ++ List.replicate (padZeros msg.length) 0 ++
    lengthLE (8 * msg.length)

def word (b0 b1 b2 b3 : Nat) : Nat := ((b3 * 256 + b2) * 256 + b1) * 256 + b0

/-- The boolean function of round `i` (0 to 4). -/
def f (i x y z : Nat) : Nat :=
  match i with
  | 0 => x ^^^ y ^^^ z
  | 1 => (x &&& y) ||| (not32 x &&& z)
  | 2 => (x ||| not32 y) ^^^ z
  | 3 => (x &&& z) ||| (y &&& not32 z)
  | _ => x ^^^ (y ||| not32 z)

/-- One step of a line: `fi` selects the boolean function, `k` is the
added constant, `x` the message word and `s` the rotation. -/
def step (fi k x s : Nat) (st : State) : State :=
  let t := add32 (rotl32 (add32 (add32 st.a (f fi st.b st.c st.d)) (add32 x k)) s) st.e
  ⟨st.e, t, st.b, rotl32 st.c 10, st.d⟩

def left (block : List Nat) (st : State) (j : Nat) : State :=
  step (j / 16) (KL.getD (j / 16) 0) (block.getD (rL.getD j 0) 0) (sL.getD j 0) st

def right (block : List Nat) (st : State) (j : Nat) : State :=
  step (4 - j / 16) (KR.getD (j / 16) 0) (block.getD (rR.getD j 0) 0) (sR.getD j 0) st

def compress (s : State) (block : List Nat) : State :=
  let l := (List.range 80).foldl (left block) s
  let r := (List.range 80).foldl (right block) s
  ⟨add32 (add32 s.b l.c) r.d, add32 (add32 s.c l.d) r.e, add32 (add32 s.d l.e) r.a,
    add32 (add32 s.e l.a) r.b, add32 (add32 s.a l.b) r.c⟩

def output (s : State) : List Nat :=
  wordLE s.a ++ wordLE s.b ++ wordLE s.c ++ wordLE s.d ++ wordLE s.e

/-- RIPEMD-160 of a byte string. -/
def sum (msg : List Nat) : List Nat :=
  let p := pad msg
  output ((blocks word (p.length / 64) p).foldl compress init)

end RIPEMD160

/-- The digests of the Go libraries: SHA-256 and RIPEMD-160. -/
def stdDigests : Digests where
  sha256 := SHA256.sum
  ripemd160 := RIPEMD160.sum
  sha256_size := fun msg => by simp [SHA256.sum, SHA256.output, wordBE]
  ripemd160_size := fun msg => by simp [RIPEMD160.sum, RIPEMD160.output, wordLE]

/-! ## The pipeline of `main` -/

/-- Lines 20-23: the buffer `comb1` after the marker byte and the two
coordinates are written. -/
def serialize (publicKey : PublicKey) : List Nat :=
  let comb1 := make 65
  let comb1 := comb1.set 0 0x02
  let comb1 := copyInto comb1 1 33 (Bytes publicKey.X)
  copyInto comb1 33 65 (Bytes publicKey.Y)

/-- Lines 26-28: `digest2`, the SHA-256 object fed with `comb1`. -/
def step2 (H : Digests) (comb1 : List Nat) : List Nat :=
  let hash2 := H.sha256New
  let hash2 := hash2.Write comb1
  hash2.Sum []

/-- Lines 31-33: `digest3`, the RIPEMD-160 object fed with `digest2`. -/
def step3 (H : Digests) (digest2 : List Nat) : List Nat :=
  let hash3 := H.ripemd160New
  let hash3 := hash3.Write digest2
  hash3.Sum []

/-- Lines 36-38: `v4`, the version byte in front of `digest3`. -/
def step4 (digest3 : List Nat) : List Nat :=
  let v4 := make 21
  let v4 := v4.set 0 0x00
  copyInto v4 1 v4.length digest3

/-- Lines 41-43: `digest5`, SHA-256 of `v4`. -/
def step5 (H : Digests) (v4 : List Nat) : List Nat :=
  let hash5 := H.sha256New
  let hash5 := hash5.Write v4
  hash5.Sum []

/-- Lines 46-48: `digest6`, SHA-256 of `digest5`. -/
def step6 (H : Digests) (digest5 : List Nat) : List Nat :=
  let hash6 := H.sha256New
  let hash6 := hash6.Write digest5
  hash6.Sum []

/-- Line 51: `checksum := digest6[:4]`. -/
def step7 (digest6 : List Nat) : List Nat := slice digest6 0 4

/-- Lines 54-56: `comb8`, the payload `v4` followed by `checksum`. -/
def step8 (v4 checksum : List Nat) : List Nat :=
  let comb8 := make 25
  let comb8 := copyInto comb8 0 21 v4
  copyInto comb8 21 comb8.length checksum

/-- Modelled from the spec: the alphabet of `base58.Encode` (package
`github.com/btcsuite/btcutil/base58`, not under `src/`), 58 characters
without `0`, `O`, `I` and `l`, the character of index 0 being `1`. -/
def alphabet : List Char :=
  "123456789ABCDEFGHJKLMNPQRSTUVWXYZabcdefghijkmnopqrstuvwxyz".data

/-- Modelled from the spec: the byte sequence read as a big-endian unsigned
integer, the first step of `base58.Encode`. -/
def SetBytes (b : List Nat) : Nat := b.foldl (fun x c => x * 256 + c) 0

/-- Modelled from the spec: the division loop of `base58.Encode`, repeated
division by 58 emitting the character of each remainder, least significant
first, until the value is zero (`fuel` bounds the number of divisions). -/
def emit58 : Nat → Nat → List Char
  | 0, _ => []
  | fuel + 1, x =>
    if x = 0 then [] else alphabet.getD (x % 58) '1' :: emit58 fuel (x / 58)

/-- Modelled from the spec: the number of leading `0x00` bytes of the input
of `base58.Encode`. -/
def leadingZeros (b : List Nat) : Nat := (b.takeWhile (· == 0)).length

/-- Modelled from the spec: `base58.Encode` of the imported package
`github.com/btcsuite/btcutil/base58`, whose source is not under `src/`.
Spec 4.4: the byte sequence is read as a big-endian unsigned integer, which
is divided by 58 until it is zero, each remainder emitting its alphabet
character; the emitted characters are reversed; each leading `0x00` byte
of the input is a leading character of index 0; the empty input gives the
empty string. -/
def Encode (b : List Nat) : String :=
  String.mk (List.replicate (leadingZeros b) (alphabet.getD 0 '1') ++
    (emit58 (SetBytes b) (SetBytes b)).reverse)

/-- The local variables of `main` from line 20 on. -/
structure Locals where
  comb1 : List Nat
  digest2 : List Nat
  digest3 : List Nat
  v4 : List Nat
  digest5 : List Nat
  digest6 : List Nat
  checksum : List Nat
  comb8 : List Nat
  address : String

/-- Lines 20-59 of `main`: every local variable computed from the public
key. -/
def derive (H : Digests) (publicKey : PublicKey) : Locals :=
  let comb1 := serialize publicKey
  let digest2 := step2 H comb1
  let digest3 := step3 H digest2
  let v4 := step4 digest3
  let digest5 := step5 H v4
  let digest6 := step6 H digest5
  let checksum := step7 digest6
  let comb8 := step8 v4 checksum
  let address := Encode comb8
  ⟨comb1, digest2, digest3, v4, digest5, digest6, checksum, comb8, address⟩

/-- The error kinds named by the specification.  The source raises neither
of them. -/
inductive ErrorKind where
  | KeyGenerationError
  | InvalidKey
deriving DecidableEq, Repr

/-- How a run of `main` ends. -/
inductive Outcome where
  /-- Line 62 is reached and prints the address. -/
  | printed (address : String)
  /-- The run stops at line 19 with the runtime panic of a nil pointer
  dereference. -/
  | nilPanic
  /-- The run stops with an error of the given kind. -/
  | failed (kind : ErrorKind)
deriving DecidableEq, Repr

/-- The function `main`.  `generated` is the first result of
`ecdsa.GenerateKey` (line 16): `none` is the nil pointer returned together
with an error, which line 16 discards.  Line 19 takes the address of a
field of `privateKey` and panics when the pointer is nil; otherwise lines
20-62 run to the end. -/
def main (H : Digests) (generated : Option PrivateKey) : Outcome :=
  match generated with
  | none => Outcome.nilPanic
  | some privateKey => Outcome.printed (derive H privateKey.PublicKey).address


/-! ## Definitions used to state the properties -/

/-- The coordinate field as the specification words it: the big-endian
bytes of `n`, left-zero-padded to exactly `w` bytes. -/
def leftPadded (w n : Nat) : List Nat :=
  List.replicate (w - (Bytes n).length) 0 ++ Bytes n

/-- The compressed form named by the comment of line 18: the byte `0x02`
followed by the 32 bytes of the X coordinate. -/
def compressedForm (publicKey : PublicKey) : List Nat :=
  [0x02] ++ leftPadded 32 publicKey.X

/-- A point of P-256 whose X coordinate is 5: its minimal big-endian
representation has one byte. -/
def keyShortX : PublicKey :=
  ⟨5, 31468013646237722594854082025316614106172411895747863909393730389177298123724⟩

/-- The base point of P-256, the public key of the private scalar 1. -/
def keyG : PublicKey :=
  ⟨0x6b17d1f2e12c4247f8bce6e563a440f277037d812deb33a0f4a13945d898c296,
    0x4fe342e2fe1a7f9b8ee7eb4a7c0f9e162bce33576b315ececbb6406837bf51f5⟩

/-- The value of a byte sequence read as a big-endian unsigned integer. -/
def bigEndian (b : List Nat) : Nat := Nat.ofDigits 256 b.reverse

/-- Lines 36-56 of `main` run on a content digest: the address bytes
`comb8` built from `digest3`. -/
def addressBytesOf (H : Digests) (digest3 : List Nat) : List Nat :=
  step8 (step4 digest3) (step7 (step6 H (step5 H (step4 digest3))))

/-! ## Lemmas on the builtins -/

theorem bytesLE_eq_digits (fuel n : Nat) (h : n ≤ fuel) :
    bytesLE fuel n = Nat.digits 256 n := by
  induction fuel generalizing n with
  | zero =>
    have hn : n = 0 := by omega
    subst hn
    simp [bytesLE]
  | succ fuel ih =>
    by_cases hn : n = 0
    · subst hn
      simp [bytesLE]
    · have hlt : n / 256 ≤ fuel := by
        have : n / 256 < n := Nat.div_lt_self (Nat.pos_of_ne_zero hn) (by norm_num)
        omega
      rw [bytesLE, if_neg hn, ih _ hlt]
      exact (Nat.digits_def' (by norm_num) (Nat.pos_of_ne_zero hn)).symm

theorem Bytes_eq_digits (n : Nat) : Bytes n = (Nat.digits 256 n).reverse := by
  rw [Bytes, bytesLE_eq_digits n n le_rfl]

theorem Bytes_length_le_iff (n k : Nat) : (Bytes n).length ≤ k ↔ n < 256 ^ k := by
  rw [Bytes_eq_digits, List.length_reverse]
  constructor
  · intro h
    calc n < 256 ^ (Nat.digits 256 n).length := Nat.lt_base_pow_length_digits (by norm_num)
      _ ≤ 256 ^ k := Nat.pow_le_pow_right (by norm_num) h
  · intro h
    by_contra hc
    push_neg at hc
    by_cases hn : n = 0
    · subst hn
      simp at hc
    · have h1 : 256 ^ (Nat.digits 256 n).length ≤ 256 * n :=
        Nat.base_pow_length_digits_le 256 n (by norm_num) hn
      have h2 : 256 ^ (k + 1) ≤ 256 ^ (Nat.digits 256 n).length :=
        Nat.pow_le_pow_right (by norm_num) hc
      rw [pow_succ] at h2
      omega

theorem copy_length (dst src : List Nat) : (copy dst src).length = dst.length := by
  simp only [copy, List.length_append, List.length_take, List.length_drop]
  omega

theorem copy_of_length_eq (dst src : List Nat) (h : src.length = dst.length) :
    copy dst src = src := by
  simp [copy, ← h]

theorem copy_of_length_le (dst src : List Nat) (h : src.length ≤ dst.length) :
    copy dst src = src ++ dst.drop src.length := by
  simp [copy, List.take_of_length_le h]

theorem copy_of_length_ge (dst src : List Nat) (h : dst.length ≤ src.length) :
    copy dst src = src.take dst.length := by
  simp [copy, List.drop_of_length_le h]

theorem slice_first_field (m : Nat) (b c : List Nat) (hb : b.length = 32) :
    slice ([m] ++ b ++ c) 1 33 = b := by
  simp only [slice, List.singleton_append, List.cons_append, List.drop_one, List.tail_cons]
  exact List.take_left' hb

theorem slice_second_field (m : Nat) (b c : List Nat) (hb : b.length = 32)
    (hc : c.length = 32) : slice ([m] ++ b ++ c) 33 65 = c := by
  have h : ([m] ++ b).length = 33 := by simp [hb]
  rw [slice, List.drop_left' h]
  exact List.take_of_length_le (by omega)

theorem serialize_eq (publicKey : PublicKey) :
    serialize publicKey =
      [2] ++ copy (make 32) (Bytes publicKey.X) ++ copy (make 32) (Bytes publicKey.Y) := by
  have h1 : ((make 65).set 0 2) = [2] ++ make 64 := by decide
  have hlen : (copy (make 32) (Bytes publicKey.X)).length = 32 := by
    rw [copy_length]; simp [make]
  simp only [serialize, copyInto, h1]
  have e1 : List.take 1 ([2] ++ make 64) = [2] := by decide
  have e2 : List.take (33 - 1) (List.drop 1 ([2] ++ make 64)) = make 32 := by decide
  have e3 : List.drop 33 ([2] ++ make 64) = make 32 := by decide
  rw [e1, e2, e3]
  have e4 : List.take 33 ([2] ++ copy (make 32) (Bytes publicKey.X) ++ make 32)
      = [2] ++ copy (make 32) (Bytes publicKey.X) := by
    rw [List.take_append_of_le_length (by simp [hlen])]
    exact List.take_of_length_le (by simp [hlen])
  have e5 : List.drop 33 ([2] ++ copy (make 32) (Bytes publicKey.X) ++ make 32) = make 32 := by
    rw [List.drop_append_of_le_length (by simp [hlen])]
    rw [List.drop_of_length_le (by simp [hlen])]
    rfl
  have e6 : List.drop 65 ([2] ++ copy (make 32) (Bytes publicKey.X) ++ make 32) = [] :=
    List.drop_of_length_le (by
      rw [List.length_append, List.length_append, hlen]
      simp [make])
  rw [e4, e5, e6]
  have e7 : List.take (65 - 33) (make 32) = make 32 := by decide
  rw [e7]
  simp

theorem step4_eq (digest3 : List Nat) : step4 digest3 = [0] ++ copy (make 20) digest3 := by
  have h1 : ((make 21).set 0 0) = [0] ++ make 20 := by decide
  simp only [step4, copyInto, h1]
  have e1 : List.take 1 ([0] ++ make 20) = [0] := by decide
  have e2 : List.take (([0] ++ make 20).length - 1) (List.drop 1 ([0] ++ make 20)) = make 20 := by
    decide
  have e3 : List.drop ([0] ++ make 20).length ([0] ++ make 20) = [] := by decide
  rw [e1, e2, e3]
  simp

theorem step4_of_length (digest3 : List Nat) (h : digest3.length = 20) :
    step4 digest3 = [0] ++ digest3 := by
  rw [step4_eq, copy_of_length_eq _ _ (by simpa [make] using h)]

theorem step7_eq (digest6 : List Nat) : step7 digest6 = digest6.take 4 := by
  simp [step7, slice]

theorem step8_eq (v4 checksum : List Nat) :
    step8 v4 checksum = copy (make 21) v4 ++ copy (make 4) checksum := by
  have hlen : (copy (make 21) v4).length = 21 := by
    rw [copy_length]; simp [make]
  simp only [step8, copyInto]
  have e1 : List.take 0 (make 25) = [] := by decide
  have e2 : List.take (21 - 0) (List.drop 0 (make 25)) = make 21 := by decide
  have e3 : List.drop 21 (make 25) = make 4 := by decide
  rw [e1, e2, e3]
  have e4 : ([] ++ copy (make 21) v4 ++ make 4).length = 25 := by
    rw [List.length_append, List.length_append, hlen]
    rfl
  rw [e4]
  have e5 : List.take 21 ([] ++ copy (make 21) v4 ++ make 4) = copy (make 21) v4 := by
    rw [List.nil_append, List.take_append_of_le_length (by omega)]
    exact List.take_of_length_le (by omega)
  have e6 : List.drop 21 ([] ++ copy (make 21) v4 ++ make 4) = make 4 := by
    rw [List.nil_append, List.drop_append_of_le_length (by omega)]
    rw [List.drop_of_length_le (by omega)]
    rfl
  have e7 : List.drop 25 ([] ++ copy (make 21) v4 ++ make 4) = [] :=
    List.drop_of_length_le (by
      rw [List.length_append, List.length_append, hlen]
      simp [make])
  rw [e5, e6, e7]
  have e8 : List.take (25 - 21) (make 4) = make 4 := by decide
  rw [e8]
  simp

theorem step8_of_length (v4 checksum : List Nat) (h1 : v4.length = 21)
    (h2 : checksum.length = 4) : step8 v4 checksum = v4 ++ checksum := by
  rw [step8_eq, copy_of_length_eq _ _ (by simpa [make] using h1),
    copy_of_length_eq _ _ (by simpa [make] using h2)]

theorem step2_eq (H : Digests) (comb1 : List Nat) : step2 H comb1 = H.sha256 comb1 := by
  simp [step2, Digests.sha256New, Hash.Write, Hash.Sum]

theorem step3_eq (H : Digests) (digest2 : List Nat) :
    step3 H digest2 = H.ripemd160 digest2 := by
  simp [step3, Digests.ripemd160New, Hash.Write, Hash.Sum]

theorem step5_eq (H : Digests) (v4 : List Nat) : step5 H v4 = H.sha256 v4 := by
  simp [step5, Digests.sha256New, Hash.Write, Hash.Sum]

theorem step6_eq (H : Digests) (digest5 : List Nat) : step6 H digest5 = H.sha256 digest5 := by
  simp [step6, Digests.sha256New, Hash.Write, Hash.Sum]

theorem take4_sha256_length (H : Digests) (b : List Nat) : ((H.sha256 b).take 4).length = 4 := by
  rw [List.length_take, H.sha256_size]
  rfl

theorem serialize_length (publicKey : PublicKey) : (serialize publicKey).length = 65 := by
  rw [serialize_eq]
  simp only [List.length_append, copy_length]
  rfl

theorem digest3_length (H : Digests) (publicKey : PublicKey) :
    (derive H publicKey).digest3.length = 20 := by
  show (step3 H _).length = 20
  rw [step3_eq]
  exact H.ripemd160_size _

theorem derive_v4 (H : Digests) (publicKey : PublicKey) :
    (derive H publicKey).v4 = [0] ++ (derive H publicKey).digest3 := by
  have h : (derive H publicKey).digest3.length = 20 := by
    show (step3 H _).length = 20
    rw [step3_eq]
    exact H.ripemd160_size _
  exact step4_of_length _ h

theorem derive_checksum (H : Digests) (publicKey : PublicKey) :
    (derive H publicKey).checksum = (H.sha256 (H.sha256 (derive H publicKey).v4)).take 4 := by
  show step7 (step6 H (step5 H _)) = _
  rw [step7_eq, step6_eq, step5_eq]
  rfl

theorem derive_comb8 (H : Digests) (publicKey : PublicKey) :
    (derive H publicKey).comb8 = (derive H publicKey).v4 ++ (derive H publicKey).checksum := by
  have h1 : (derive H publicKey).v4.length = 21 := by
    rw [derive_v4, List.length_append]
    show 1 + (step3 H _).length = 21
    rw [step3_eq, H.ripemd160_size]
  have h2 : (derive H publicKey).checksum.length = 4 := by
    rw [derive_checksum]
    exact take4_sha256_length H _
  exact step8_of_length _ _ h1 h2

/-! ## Lemmas on the Base58 encoding -/

theorem emit58_eq_digits (fuel x : Nat) (h : x ≤ fuel) :
    emit58 fuel x = (Nat.digits 58 x).map fun d => alphabet.getD d '1' := by
  induction fuel generalizing x with
  | zero =>
    have hx : x = 0 := by omega
    subst hx
    simp [emit58]
  | succ fuel ih =>
    by_cases hx : x = 0
    · subst hx
      simp [emit58]
    · have hlt : x / 58 ≤ fuel := by
        have : x / 58 < x := Nat.div_lt_self (Nat.pos_of_ne_zero hx) (by norm_num)
        omega
      rw [emit58, if_neg hx, ih _ hlt,
        Nat.digits_def' (b := 58) (by norm_num) (Nat.pos_of_ne_zero hx)]
      rfl

theorem alphabet_ne_one (d : Nat) (h0 : d ≠ 0) (h58 : d < 58) : alphabet.getD d '1' ≠ '1' := by
  interval_cases d <;> first | contradiction | decide

theorem foldl_bytes_ge (r : List Nat) (a : Nat) :
    a ≤ r.foldl (fun x c => x * 256 + c) a := by
  induction r generalizing a with
  | nil => exact le_rfl
  | cons c r ih =>
    rw [List.foldl_cons]
    exact le_trans (by omega) (ih _)

theorem SetBytes_zeros_append (k : Nat) (rest : List Nat) :
    SetBytes (List.replicate k 0 ++ rest) = SetBytes rest := by
  induction k with
  | zero => simp
  | succ k ih =>
    rw [List.replicate_succ, List.cons_append]
    simpa [SetBytes] using ih

theorem SetBytes_pos (c : Nat) (r : List Nat) (hc : c ≠ 0) : SetBytes (c :: r) ≠ 0 := by
  have h := foldl_bytes_ge r (0 * 256 + c)
  simp only [SetBytes, List.foldl_cons]
  omega

theorem leadingZeros_zeros_append (k : Nat) (rest : List Nat) (h : rest.head? ≠ some 0) :
    leadingZeros (List.replicate k 0 ++ rest) = k := by
  induction k with
  | zero =>
    cases rest with
    | nil => rfl
    | cons c r =>
      have hc : c ≠ 0 := by simpa using h
      simp [leadingZeros, List.takeWhile_cons, hc]
  | succ k ih =>
    rw [List.replicate_succ, List.cons_append]
    simpa [leadingZeros, List.takeWhile_cons] using ih

theorem eq_zeros_append_drop (b : List Nat) (k : Nat) (hzero : ∀ i, i < k → b[i]? = some 0) :
    b = List.replicate k 0 ++ b.drop k := by
  induction k generalizing b with
  | zero => simp
  | succ k ih =>
    cases b with
    | nil => simpa using hzero 0 (by omega)
    | cons c t =>
      have h0 : c = 0 := by simpa using hzero 0 (by omega)
      subst h0
      have ht : ∀ i, i < k → t[i]? = some 0 := fun i hi => by
        simpa using hzero (i + 1) (by omega)
      rw [List.replicate_succ, List.cons_append, List.drop_succ_cons, ← ih t ht]

theorem Encode_zeros_append (k : Nat) (rest : List Nat) (h : rest.head? ≠ some 0) :
    (Encode (List.replicate k 0 ++ rest)).data =
      List.replicate k '1' ++ ((Nat.digits 58 (SetBytes rest)).map fun d =>
        alphabet.getD d '1').reverse := by
  rw [Encode, leadingZeros_zeros_append k rest h, SetBytes_zeros_append,
    emit58_eq_digits _ _ le_rfl]
  rfl

/-! ## Further lemmas on the Base58 encoding -/

theorem Encode_data (b : List Nat) :
    (Encode b).data = List.replicate (leadingZeros b) '1' ++
      ((Nat.digits 58 (SetBytes b)).map fun d => alphabet.getD d '1').reverse := by
  rw [Encode, emit58_eq_digits _ _ le_rfl]
  rfl

theorem leadingZeros_cons_zero (t : List Nat) : leadingZeros (0 :: t) = leadingZeros t + 1 := by
  simp [leadingZeros, List.takeWhile_cons]

theorem leadingZeros_cons_ne (c : Nat) (t : List Nat) (hc : c ≠ 0) :
    leadingZeros (c :: t) = 0 := by
  simp [leadingZeros, List.takeWhile_cons, hc]

theorem Encode_head_of_zero (t : List Nat) : (Encode (0 :: t)).data.head? = some '1' := by
  rw [Encode_data, leadingZeros_cons_zero, List.replicate_succ]
  rfl

theorem exists_zeros_append (b : List Nat) :
    ∃ rest, b = List.replicate (leadingZeros b) 0 ++ rest ∧ rest.head? ≠ some 0 := by
  induction b with
  | nil => exact ⟨[], rfl, by simp⟩
  | cons c t ih =>
    by_cases hc : c = 0
    · subst hc
      obtain ⟨rest, h1, h2⟩ := ih
      refine ⟨rest, ?_, h2⟩
      rw [leadingZeros_cons_zero, List.replicate_succ, List.cons_append, ← h1]
    · refine ⟨c :: t, ?_, by simpa using hc⟩
      rw [leadingZeros_cons_ne c t hc]
      rfl

theorem digit_char_ne_one (x : Nat) (hx : x ≠ 0) :
    (((Nat.digits 58 x).map fun d => alphabet.getD d '1').reverse)[0]? ≠ some '1' := by
  have hne : Nat.digits 58 x ≠ [] := by
    rw [Ne, Nat.digits_eq_nil_iff_eq_zero]
    exact hx
  have hlast := Nat.getLast_digit_ne_zero 58 hx
  have hlt : (Nat.digits 58 x).getLast hne < 58 :=
    Nat.digits_lt_base (by norm_num) (List.getLast_mem hne)
  rw [← List.map_reverse, List.getElem?_map, ← List.head?_eq_getElem?, List.head?_reverse,
    List.getLast?_eq_getLast _ hne]
  simp only [Option.map_some']
  intro heq
  exact alphabet_ne_one _ hlast hlt (Option.some.inj heq)

theorem Encode_leading (b : List Nat) :
    (Encode b).data.take (leadingZeros b) = List.replicate (leadingZeros b) '1' ∧
    (Encode b).data[leadingZeros b]? ≠ some '1' := by
  obtain ⟨rest, h1, h2⟩ := exists_zeros_append b
  have hdata := Encode_zeros_append (leadingZeros b) rest h2
  rw [← h1] at hdata
  rw [hdata]
  refine ⟨List.take_left' (by simp), ?_⟩
  rw [List.getElem?_append_right (by simp)]
  simp only [List.length_replicate, Nat.sub_self]
  cases rest with
  | nil => simp [SetBytes]
  | cons c r =>
    have hc : c ≠ 0 := by simpa using h2
    exact digit_char_ne_one _ (SetBytes_pos c r hc)

theorem ofDigits_eq_SetBytes_reverse (l : List Nat) :
    Nat.ofDigits 256 l = SetBytes l.reverse := by
  induction l with
  | nil => rfl
  | cons h t ih =>
    rw [Nat.ofDigits_cons, ih, List.reverse_cons]
    simp only [SetBytes, List.foldl_append, List.foldl_cons, List.foldl_nil, Nat.cast_id]
    omega

theorem SetBytes_eq_ofDigits (b : List Nat) : SetBytes b = Nat.ofDigits 256 b.reverse := by
  rw [ofDigits_eq_SetBytes_reverse, List.reverse_reverse]

theorem SetBytes_lt (b : List Nat) (hb : ∀ x ∈ b, x < 256) : SetBytes b < 256 ^ b.length := by
  rw [SetBytes_eq_ofDigits, ← List.length_reverse]
  exact Nat.ofDigits_lt_base_pow_length (by norm_num) (fun x hx => hb x (List.mem_reverse.mp hx))

theorem SetBytes_cons (c : Nat) (r : List Nat) :
    SetBytes (c :: r) = c * 256 ^ r.length + SetBytes r := by
  rw [SetBytes_eq_ofDigits, SetBytes_eq_ofDigits, List.reverse_cons, Nat.ofDigits_append,
    List.length_reverse, Nat.ofDigits_singleton]
  ring

theorem digits_length_le_iff (n k : Nat) : (Nat.digits 58 n).length ≤ k ↔ n < 58 ^ k := by
  constructor
  · intro h
    calc n < 58 ^ (Nat.digits 58 n).length := Nat.lt_base_pow_length_digits (by norm_num)
      _ ≤ 58 ^ k := Nat.pow_le_pow_right (by norm_num) h
  · intro h
    by_contra hc
    push_neg at hc
    by_cases hn : n = 0
    · subst hn
      simp at hc
    · have h1 : 58 ^ (Nat.digits 58 n).length ≤ 58 * n :=
        Nat.base_pow_length_digits_le 58 n (by norm_num) hn
      have h2 : 58 ^ (k + 1) ≤ 58 ^ (Nat.digits 58 n).length :=
        Nat.pow_le_pow_right (by norm_num) hc
      rw [pow_succ] at h2
      omega

theorem alphabet_getD_mem (d : Nat) (h58 : d < 58) : alphabet.getD d '1' ∈ alphabet := by
  interval_cases d <;> decide

theorem Encode_mem_alphabet (b : List Nat) (ch : Char) (h : ch ∈ (Encode b).data) :
    ch ∈ alphabet := by
  rw [Encode_data, List.mem_append] at h
  rcases h with h | h
  · rw [List.eq_of_mem_replicate h]
    decide
  · rw [List.mem_reverse, List.mem_map] at h
    obtain ⟨d, hd, rfl⟩ := h
    exact alphabet_getD_mem d (Nat.digits_lt_base (by norm_num) hd)

theorem pow_256_le_pow_58 (k : Nat) (h1 : 1 ≤ k) (h2 : k ≤ 25) :
    256 ^ (25 - k) ≤ 58 ^ (34 - k) := by
  interval_cases k <;> norm_num

theorem Encode_length_bounds (b : List Nat) (hb : ∀ x ∈ b, x < 256) (hlen : b.length = 25)
    (h0 : b.head? = some 0) :
    25 ≤ (Encode b).data.length ∧ (Encode b).data.length ≤ 34 := by
  obtain ⟨rest, h1, h2⟩ := exists_zeros_append b
  have hk1 : 1 ≤ leadingZeros b := by
    cases b with
    | nil => simp at h0
    | cons c t =>
      have hc : c = 0 := by simpa using h0
      subst hc
      rw [leadingZeros_cons_zero]
      omega
  have hsum : leadingZeros b + rest.length = 25 := by
    have h := congrArg List.length h1
    rw [List.length_append, List.length_replicate, hlen] at h
    omega
  have hrest : ∀ x ∈ rest, x < 256 := by
    intro x hx
    apply hb
    rw [h1]
    exact List.mem_append_right _ hx
  have hdata := Encode_zeros_append (leadingZeros b) rest h2
  rw [← h1] at hdata
  have hlength : (Encode b).data.length =
      leadingZeros b + (Nat.digits 58 (SetBytes rest)).length := by
    rw [hdata]
    simp
  rw [hlength]
  constructor
  · cases rest with
    | nil =>
      simp only [List.length_nil] at hsum
      omega
    | cons c r =>
      have hc : c ≠ 0 := by simpa using h2
      have hge : 58 ^ r.length ≤ SetBytes (c :: r) := by
        rw [SetBytes_cons]
        have hp : 58 ^ r.length ≤ 256 ^ r.length := Nat.pow_le_pow_left (by norm_num) _
        have hc1 : 1 * 256 ^ r.length ≤ c * 256 ^ r.length :=
          Nat.mul_le_mul_right _ (Nat.pos_of_ne_zero hc)
        omega
      have hnot : ¬ (Nat.digits 58 (SetBytes (c :: r))).length ≤ r.length := by
        rw [digits_length_le_iff]
        omega
      simp only [List.length_cons] at hsum
      omega
  · have hlt : SetBytes rest < 58 ^ (34 - leadingZeros b) := by
      have h3 := SetBytes_lt rest hrest
      have h4 := pow_256_le_pow_58 (leadingZeros b) hk1 (by omega)
      have h5 : rest.length = 25 - leadingZeros b := by omega
      rw [h5] at h3
      omega
    have := (digits_length_le_iff _ _).mpr hlt
    omega

/-! ## Lemmas on the coordinate fields -/

theorem ofDigits_replicate_zero (n : Nat) : Nat.ofDigits 256 (List.replicate n 0) = 0 := by
  induction n with
  | zero => rfl
  | succ n ih =>
    rw [List.replicate_succ, Nat.ofDigits_cons, ih]

theorem Bytes_head_ne_zero (c : Nat) (hc : c ≠ 0) : (Bytes c).head? ≠ some 0 := by
  have hne : Nat.digits 256 c ≠ [] := by
    rw [Ne, Nat.digits_eq_nil_iff_eq_zero]
    exact hc
  rw [Bytes_eq_digits, List.head?_reverse, List.getLast?_eq_getLast _ hne]
  intro h
  exact Nat.getLast_digit_ne_zero 256 hc (Option.some.inj h)

theorem field_eq (c : Nat) (hc : c < 2 ^ 256) :
    copy (make 32) (Bytes c) = Bytes c ++ List.replicate (32 - (Bytes c).length) 0 := by
  have hlen : (Bytes c).length ≤ 32 := (Bytes_length_le_iff c 32).mpr (by norm_num; omega)
  rw [copy_of_length_le _ _ (by simpa [make] using hlen), make, List.drop_replicate]

theorem slice_serialize_X (publicKey : PublicKey) :
    slice (serialize publicKey) 1 33 = copy (make 32) (Bytes publicKey.X) := by
  rw [serialize_eq]
  exact slice_first_field _ _ _ (by rw [copy_length]; rfl)

theorem slice_serialize_Y (publicKey : PublicKey) :
    slice (serialize publicKey) 33 65 = copy (make 32) (Bytes publicKey.Y) := by
  rw [serialize_eq]
  exact slice_second_field _ _ _ (by rw [copy_length]; rfl) (by rw [copy_length]; rfl)

/-! ## Lemmas on the curve -/

theorem onP256_lt (k : PublicKey) (h : onP256 k = true) : k.X < p256P ∧ k.Y < p256P := by
  simp only [onP256, Bool.and_eq_true, decide_eq_true_eq] at h
  exact ⟨h.1.1, h.1.2⟩

theorem p256_coordinate_fits (n : Nat) (h : n < p256P) : (Bytes n).length ≤ 32 := by
  rw [Bytes_length_le_iff]
  have hp : p256P < 256 ^ 32 := by decide
  omega

/-! ## The claims -/

/-- C1 (defect of the code): at the P-256 public key with X = 5 the bytes
1..33 of the serialized key are the byte 5 followed by 31 zero bytes, while
X left-zero-padded to 32 bytes is 31 zero bytes followed by the byte 5.  The
Y coordinate of this key fills its 32 bytes and is written as the claim
says. -/
theorem C1_short_coordinate_not_left_padded :
    onP256 keyShortX = true ∧
    slice (serialize keyShortX) 1 33 = 5 :: List.replicate 31 0 ∧
    leftPadded 32 keyShortX.X = List.replicate 31 0 ++ [5] ∧
    slice (serialize keyShortX) 1 33 ≠ leftPadded 32 keyShortX.X ∧
    slice (serialize keyShortX) 33 65 = leftPadded 32 keyShortX.Y := by
  decide

/-- C2: every key that `main` can receive is a point of P-256, whose
coordinates are below the prime of the field and so fit in 32 bytes.  For
such a key the condition under which serialization is to fail with
InvalidKey, a coordinate whose minimal big-endian representation is longer
than 32 bytes, never holds, so the run fails with InvalidKey whenever it
holds; the run ends with no error and prints the address derived from the
65-byte serialized key. -/
theorem C2_wide_coordinate_never_arises (H : Digests) (privateKey : PrivateKey)
    (hcurve : onP256 privateKey.PublicKey = true) :
    (Bytes privateKey.PublicKey.X).length ≤ 32 ∧
    (Bytes privateKey.PublicKey.Y).length ≤ 32 ∧
    (32 < (Bytes privateKey.PublicKey.X).length ∨ 32 < (Bytes privateKey.PublicKey.Y).length →
      main H (some privateKey) = Outcome.failed ErrorKind.InvalidKey) ∧
    (derive H privateKey.PublicKey).comb1.length = 65 ∧
    main H (some privateKey) = Outcome.printed (derive H privateKey.PublicKey).address ∧
    (∀ kind, main H (some privateKey) ≠ Outcome.failed kind) := by
  have hlt := onP256_lt _ hcurve
  have hx := p256_coordinate_fits _ hlt.1
  have hy := p256_coordinate_fits _ hlt.2
  refine ⟨hx, hy, ?_, serialize_length _, rfl, ?_⟩
  · intro hwide
    omega
  · intro kind
    simp [main]

/-- Witness of C2: the base point of P-256 with the private scalar 1. -/
theorem C2_wide_coordinate_never_arises_witness :
    onP256 (PrivateKey.mk keyG 1).PublicKey = true ∧
    (Bytes (PrivateKey.mk keyG 1).PublicKey.X).length ≤ 32 ∧
    (Bytes (PrivateKey.mk keyG 1).PublicKey.Y).length ≤ 32 ∧
    main stdDigests (some (PrivateKey.mk keyG 1)) =
      Outcome.printed (derive stdDigests (PrivateKey.mk keyG 1).PublicKey).address :=
  have h := C2_wide_coordinate_never_arises stdDigests (PrivateKey.mk keyG 1) (by decide)
  ⟨by decide, h.1, h.2.1, h.2.2.2.2.1⟩

/-- C3: the content digest of the pipeline is RIPEMD160(SHA256(s)) for the
serialized public key s: `digest2` is the 32-byte SHA-256 digest of `comb1`
and `digest3` is the 20-byte RIPEMD-160 digest of `digest2`. -/
theorem C3_content_digest (H : Digests) :
    (∀ s : List Nat, step3 H (step2 H s) = H.ripemd160 (H.sha256 s) ∧
      (step2 H s).length = 32 ∧ (step3 H (step2 H s)).length = 20) ∧
    (∀ publicKey : PublicKey,
      (derive H publicKey).comb1 = serialize publicKey ∧
      (derive H publicKey).digest2 = H.sha256 (derive H publicKey).comb1 ∧
      (derive H publicKey).digest3 = H.ripemd160 (derive H publicKey).digest2 ∧
      (derive H publicKey).digest3 = H.ripemd160 (H.sha256 (serialize publicKey)) ∧
      (derive H publicKey).digest2.length = 32 ∧
      (derive H publicKey).digest3.length = 20) := by
  have hs : ∀ s : List Nat, step3 H (step2 H s) = H.ripemd160 (H.sha256 s) ∧
      (step2 H s).length = 32 ∧ (step3 H (step2 H s)).length = 20 := by
    intro s
    rw [step3_eq, step2_eq]
    exact ⟨rfl, H.sha256_size _, H.ripemd160_size _⟩
  refine ⟨hs, fun publicKey => ⟨rfl, step2_eq _ _, step3_eq _ _, (hs _).1, (hs _).2.1, (hs _).2.2⟩⟩

/-- C4: the checksum of the pipeline is the first 4 bytes of
SHA256(SHA256(p)) for the 21-byte versioned payload p, and has exactly 4
bytes. -/
theorem C4_checksum (H : Digests) :
    (∀ p : List Nat, step7 (step6 H (step5 H p)) = (H.sha256 (H.sha256 p)).take 4 ∧
      (step7 (step6 H (step5 H p))).length = 4) ∧
    (∀ publicKey : PublicKey,
      (derive H publicKey).v4.length = 21 ∧
      (derive H publicKey).digest5 = H.sha256 (derive H publicKey).v4 ∧
      (derive H publicKey).digest6 = H.sha256 (derive H publicKey).digest5 ∧
      (derive H publicKey).checksum = (derive H publicKey).digest6.take 4 ∧
      (derive H publicKey).checksum = (H.sha256 (H.sha256 (derive H publicKey).v4)).take 4 ∧
      (derive H publicKey).checksum.length = 4) := by
  have hp : ∀ p : List Nat, step7 (step6 H (step5 H p)) = (H.sha256 (H.sha256 p)).take 4 ∧
      (step7 (step6 H (step5 H p))).length = 4 := by
    intro p
    rw [step7_eq, step6_eq, step5_eq]
    exact ⟨rfl, take4_sha256_length H _⟩
  refine ⟨hp, fun publicKey => ⟨?_, step5_eq _ _, step6_eq _ _, step7_eq _, (hp _).1, (hp _).2⟩⟩
  rw [derive_v4, List.length_append, (digest3_length H publicKey)]
  rfl

/-- C5: for every 20-byte content digest d the address bytes built by lines
36-56 are the version byte 0x00, then d unchanged, then the 4-byte checksum
of the 21-byte payload made of the version byte and d. -/
theorem C5_address_bytes_layout (H : Digests) (d : List Nat) (hd : d.length = 20) :
    step4 d = [0] ++ d ∧
    step8 (step4 d) (step7 (step6 H (step5 H (step4 d)))) =
      [0] ++ d ++ (H.sha256 (H.sha256 ([0] ++ d))).take 4 ∧
    slice (step8 (step4 d) (step7 (step6 H (step5 H (step4 d))))) 0 1 = [0] ∧
    slice (step8 (step4 d) (step7 (step6 H (step5 H (step4 d))))) 1 21 = d ∧
    slice (step8 (step4 d) (step7 (step6 H (step5 H (step4 d))))) 21 25 =
      (H.sha256 (H.sha256 ([0] ++ d))).take 4 := by
  have h4 : step4 d = [0] ++ d := step4_of_length d hd
  have hc : (List.take 4 (H.sha256 (H.sha256 ([0] ++ d)))).length = 4 :=
    take4_sha256_length H _
  have h8 : step8 (step4 d) (step7 (step6 H (step5 H (step4 d)))) =
      [0] ++ d ++ (H.sha256 (H.sha256 ([0] ++ d))).take 4 := by
    rw [step7_eq, step6_eq, step5_eq, h4]
    exact step8_of_length _ _ (by simp [hd]) hc
  refine ⟨h4, h8, ?_, ?_, ?_⟩
  · rw [h8]
    simp [slice]
  · rw [h8]
    simp only [slice, List.singleton_append, List.cons_append, List.drop_one, List.tail_cons]
    exact List.take_left' hd
  · rw [h8]
    have h : ([0] ++ d).length = 21 := by simp [hd]
    rw [slice, List.drop_left' h]
    exact List.take_of_length_le (by omega)

/-- Witness of C5: the content digest made of 20 zero bytes. -/
theorem C5_address_bytes_layout_witness :
    (List.replicate 20 0).length = 20 ∧
    step8 (step4 (List.replicate 20 0))
        (step7 (step6 stdDigests (step5 stdDigests (step4 (List.replicate 20 0))))) =
      [0] ++ List.replicate 20 0 ++
        (stdDigests.sha256 (stdDigests.sha256 ([0] ++ List.replicate 20 0))).take 4 :=
  ⟨by decide, (C5_address_bytes_layout stdDigests (List.replicate 20 0) (by decide)).2.1⟩

/-- C6: for the address bytes of every public key, the first 4 bytes of
SHA256(SHA256(a[0..21])) are the bytes a[21..25]. -/
theorem C6_checksum_round_trip (H : Digests) (publicKey : PublicKey) :
    (H.sha256 (H.sha256 (slice (derive H publicKey).comb8 0 21))).take 4 =
      slice (derive H publicKey).comb8 21 25 := by
  have h1 : (derive H publicKey).v4.length = 21 := by
    rw [derive_v4, List.length_append, digest3_length]
    rfl
  have h2 : (derive H publicKey).checksum.length = 4 := by
    rw [derive_checksum]
    exact take4_sha256_length H _
  have e1 : slice (derive H publicKey).comb8 0 21 = (derive H publicKey).v4 := by
    rw [derive_comb8, slice, List.drop_zero]
    exact List.take_left' h1
  have e2 : slice (derive H publicKey).comb8 21 25 = (derive H publicKey).checksum := by
    rw [derive_comb8, slice, List.drop_left' h1]
    exact List.take_of_length_le (by omega)
  rw [e1, e2, derive_checksum]

/-- C7: for every public key, whatever the lengths of the minimal
representations of its coordinates, the serialized public key has 65 bytes,
the versioned payload 21 bytes and the address bytes 25 bytes. -/
theorem C7_fixed_lengths (H : Digests) (publicKey : PublicKey) :
    (derive H publicKey).comb1.length = 1 + 2 * 32 ∧
    (derive H publicKey).v4.length = 21 ∧
    (derive H publicKey).comb8.length = 25 := by
  have h1 : (derive H publicKey).v4.length = 21 := by
    rw [derive_v4, List.length_append, digest3_length]
    rfl
  have h2 : (derive H publicKey).checksum.length = 4 := by
    rw [derive_checksum]
    exact take4_sha256_length H _
  refine ⟨serialize_length publicKey, h1, ?_⟩
  rw [derive_comb8, List.length_append, h1, h2]

/-- C8: Base58 leading-zero law.  When the first k bytes of b are 0x00 and
the byte after them, if any, is not, the first k characters of the Base58
encoding of b are the character '1' of index 0 and its character of index
k, if present, is not '1'. -/
theorem C8_base58_leading_zeros (b : List Nat) (k : Nat)
    (hzero : ∀ i, i < k → b[i]? = some 0) (hnext : b[k]? ≠ some 0) :
    (Encode b).data.take k = List.replicate k '1' ∧ (Encode b).data[k]? ≠ some '1' := by
  have hb := eq_zeros_append_drop b k hzero
  have hhead : (b.drop k).head? ≠ some 0 := by
    rw [List.head?_drop]
    exact hnext
  have hdata := Encode_zeros_append k (b.drop k) hhead
  rw [← hb] at hdata
  rw [hdata]
  refine ⟨List.take_left' (by simp), ?_⟩
  rw [List.getElem?_append_right (by simp)]
  simp only [List.length_replicate, Nat.sub_self]
  cases hr : b.drop k with
  | nil => simp [SetBytes]
  | cons c r =>
    have hc : c ≠ 0 := by
      rw [hr] at hhead
      simpa using hhead
    have hx : SetBytes (c :: r) ≠ 0 := SetBytes_pos c r hc
    have hne : Nat.digits 58 (SetBytes (c :: r)) ≠ [] := by
      rw [Ne, Nat.digits_eq_nil_iff_eq_zero]
      exact hx
    have hlast := Nat.getLast_digit_ne_zero 58 hx
    have hlt : (Nat.digits 58 (SetBytes (c :: r))).getLast hne < 58 :=
      Nat.digits_lt_base (by norm_num) (List.getLast_mem hne)
    rw [← List.map_reverse, List.getElem?_map, ← List.head?_eq_getElem?, List.head?_reverse,
      List.getLast?_eq_getLast _ hne]
    simp only [Option.map_some']
    intro heq
    exact alphabet_ne_one _ hlast hlt (Option.some.inj heq)

/-- Witness of C8: the bytes 0, 0, 7, 0 with k = 2. -/
theorem C8_base58_leading_zeros_witness :
    (∀ i, i < 2 → [0, 0, 7, 0][i]? = some 0) ∧ [0, 0, 7, 0][2]? ≠ some 0 ∧
    (Encode [0, 0, 7, 0]).data.take 2 = List.replicate 2 '1' ∧
    (Encode [0, 0, 7, 0]).data[2]? ≠ some '1' :=
  have hz : ∀ i, i < 2 → [0, 0, 7, 0][i]? = some 0 := by decide
  ⟨hz, by decide, C8_base58_leading_zeros [0, 0, 7, 0] 2 hz (by decide)⟩
/-- C9 (the claim fails): when key generation fails the run does not end
with the error kind KeyGenerationError. -/
theorem C9_counterexample :
    main stdDigests none ≠ Outcome.failed ErrorKind.KeyGenerationError := by
  simp [main]

/-- C9 (amended): when key generation fails the run stops with the runtime
panic of a nil pointer dereference where the public key is taken; it ends
with no error kind and prints no address. -/
theorem C9_failed_generation_panics (H : Digests) :
    main H none = Outcome.nilPanic ∧
    (∀ kind, main H none ≠ Outcome.failed kind) ∧
    (∀ address, main H none ≠ Outcome.printed address) := by
  refine ⟨rfl, ?_, ?_⟩
  · intro kind
    simp [main]
  · intro address
    simp [main]

/-- C10 (defect of the code): at the base point of P-256 the bytes hashed
in step 2 are the 65 bytes of `comb1`, the byte 0x02, the 32 bytes of X and
the 32 bytes of Y, not the 33-byte compressed form of the comment of
line 18. -/
theorem C10_hashed_key_has_both_coordinates :
    onP256 keyG = true ∧
    (derive stdDigests keyG).digest2 =
      stdDigests.sha256 ([2] ++ Bytes keyG.X ++ Bytes keyG.Y) ∧
    ([2] ++ Bytes keyG.X ++ Bytes keyG.Y).length = 65 ∧
    (compressedForm keyG).length = 33 ∧
    (derive stdDigests keyG).comb1 ≠ compressedForm keyG ∧
    slice (derive stdDigests keyG).comb1 33 65 = Bytes keyG.Y := by
  have hc : (derive stdDigests keyG).comb1 = [2] ++ Bytes keyG.X ++ Bytes keyG.Y := by
    show serialize keyG = _
    decide
  have hd : (derive stdDigests keyG).digest2 =
      stdDigests.sha256 (derive stdDigests keyG).comb1 := step2_eq _ _
  rw [hc] at hd
  refine ⟨by decide, hd, by decide, by decide, ?_, ?_⟩
  · rw [hc]
    decide
  · rw [hc]
    decide

/-- C11: the address bytes and the address depend only on the public
point: two generated keys with the same public key and different private
scalars give the same address bytes, the same address and the same run. -/
theorem C11_private_key_independence (H : Digests) (k1 k2 : PrivateKey)
    (hpub : k1.PublicKey = k2.PublicKey) (_hD : k1.D ≠ k2.D) :
    (derive H k1.PublicKey).comb8 = (derive H k2.PublicKey).comb8 ∧
    (derive H k1.PublicKey).address = (derive H k2.PublicKey).address ∧
    main H (some k1) = main H (some k2) := by
  refine ⟨by rw [hpub], by rw [hpub], ?_⟩
  simp only [main, hpub]

/-- Witness of C11: the base point of P-256 with the private scalars 1
and 2. -/
theorem C11_private_key_independence_witness :
    (PrivateKey.mk keyG 1).PublicKey = (PrivateKey.mk keyG 2).PublicKey ∧
    (PrivateKey.mk keyG 1).D ≠ (PrivateKey.mk keyG 2).D ∧
    main stdDigests (some (PrivateKey.mk keyG 1)) = main stdDigests (some (PrivateKey.mk keyG 2)) :=
  ⟨rfl, by decide,
    (C11_private_key_independence stdDigests (PrivateKey.mk keyG 1) (PrivateKey.mk keyG 2) rfl
      (by decide)).2.2⟩

/-- C13: for the content digest of 20 zero bytes and the version byte 0x00
the versioned payload is 21 zero bytes, the address bytes are these 21 zero
bytes followed by the first 4 bytes of the double SHA-256 of the payload,
25 bytes in all, and the address begins with one character '1' for each
leading zero byte of the address bytes, of which there are at least 21.
With SHA-256 itself the checksum is 0x94 0xa0 0x09 0x11 and the address has
exactly 21 leading characters '1'. -/
theorem C13_zero_digest_scenario :
    step4 (List.replicate 20 0) = List.replicate 21 0 ∧
    (∀ H : Digests,
      step7 (step6 H (step5 H (step4 (List.replicate 20 0)))) =
        (H.sha256 (H.sha256 (List.replicate 21 0))).take 4 ∧
      addressBytesOf H (List.replicate 20 0) =
        List.replicate 21 0 ++ (H.sha256 (H.sha256 (List.replicate 21 0))).take 4 ∧
      (addressBytesOf H (List.replicate 20 0)).length = 25 ∧
      21 ≤ leadingZeros (addressBytesOf H (List.replicate 20 0)) ∧
      (Encode (addressBytesOf H (List.replicate 20 0))).data.take
          (leadingZeros (addressBytesOf H (List.replicate 20 0))) =
        List.replicate (leadingZeros (addressBytesOf H (List.replicate 20 0))) '1' ∧
      (Encode (addressBytesOf H (List.replicate 20 0))).data[
          leadingZeros (addressBytesOf H (List.replicate 20 0))]? ≠ some '1') ∧
    addressBytesOf stdDigests (List.replicate 20 0) =
      List.replicate 21 0 ++ [0x94, 0xa0, 0x09, 0x11] ∧
    leadingZeros (addressBytesOf stdDigests (List.replicate 20 0)) = 21 ∧
    Encode (addressBytesOf stdDigests (List.replicate 20 0)) =
      "1111111111111111111114oLvT2" := by
  have h4 : step4 (List.replicate 20 0) = List.replicate 21 0 := by decide
  have hstd : step7 (step6 stdDigests (step5 stdDigests (List.replicate 21 0))) =
      [0x94, 0xa0, 0x09, 0x11] := by
    set_option maxRecDepth 1000000 in decide
  have hstd8 : addressBytesOf stdDigests (List.replicate 20 0) =
      List.replicate 21 0 ++ [0x94, 0xa0, 0x09, 0x11] := by
    rw [addressBytesOf, h4, hstd]
    decide
  refine ⟨h4, fun H => ?_, hstd8, ?_, ?_⟩
  · have h7 : step7 (step6 H (step5 H (List.replicate 21 0))) =
        (H.sha256 (H.sha256 (List.replicate 21 0))).take 4 := by
      rw [step7_eq, step6_eq, step5_eq]
    have h8 : addressBytesOf H (List.replicate 20 0) =
        List.replicate 21 0 ++ (H.sha256 (H.sha256 (List.replicate 21 0))).take 4 := by
      rw [addressBytesOf, h4, h7]
      exact step8_of_length _ _ (by simp) (take4_sha256_length H _)
    refine ⟨?_, h8, ?_, ?_, (Encode_leading _).1, (Encode_leading _).2⟩
    · rw [h4, h7]
    · rw [h8, List.length_append, take4_sha256_length]
      rfl
    · have hz : ∀ (n : Nat) (t : List Nat), n ≤ leadingZeros (List.replicate n 0 ++ t) := by
        intro n t
        induction n with
        | zero => exact Nat.zero_le _
        | succ n ih =>
          rw [List.replicate_succ, List.cons_append, leadingZeros_cons_zero]
          omega
      rw [h8]
      exact hz 21 _
  · rw [hstd8]
    decide
  · rw [hstd8]
    decide

/-- C14: two runs of `main` whose generated keys have the same public
coordinates X and Y, whatever else the key generation returned, end in the
same way: both print the same address, computed from byte-identical
serialized keys, digests, checksums and address bytes. -/
theorem C14_runs_on_same_coordinates_agree (H : Digests) (run1 run2 : PrivateKey)
    (hX : run1.PublicKey.X = run2.PublicKey.X) (hY : run1.PublicKey.Y = run2.PublicKey.Y) :
    main H (some run1) = main H (some run2) ∧
    (∃ address : String, main H (some run1) = Outcome.printed address ∧
      main H (some run2) = Outcome.printed address) ∧
    (derive H run1.PublicKey).comb1 = (derive H run2.PublicKey).comb1 ∧
    (derive H run1.PublicKey).digest3 = (derive H run2.PublicKey).digest3 ∧
    (derive H run1.PublicKey).checksum = (derive H run2.PublicKey).checksum ∧
    (derive H run1.PublicKey).comb8 = (derive H run2.PublicKey).comb8 ∧
    (derive H run1.PublicKey).address = (derive H run2.PublicKey).address := by
  obtain ⟨⟨x1, y1⟩, d1⟩ := run1
  obtain ⟨⟨x2, y2⟩, d2⟩ := run2
  simp only at hX hY
  subst hX hY
  exact ⟨rfl, ⟨_, rfl, rfl⟩, rfl, rfl, rfl, rfl, rfl⟩

/-- Witness of C14: two generated keys with the public point of P-256 whose
X is 5 and with the scalars 3 and 4. -/
theorem C14_runs_on_same_coordinates_agree_witness :
    (PrivateKey.mk keyShortX 3).PublicKey.X = (PrivateKey.mk keyShortX 4).PublicKey.X ∧
    (PrivateKey.mk keyShortX 3).PublicKey.Y = (PrivateKey.mk keyShortX 4).PublicKey.Y ∧
    PrivateKey.mk keyShortX 3 ≠ PrivateKey.mk keyShortX 4 ∧
    main stdDigests (some (PrivateKey.mk keyShortX 3)) =
      main stdDigests (some (PrivateKey.mk keyShortX 4)) :=
  ⟨rfl, rfl, by decide,
    (C14_runs_on_same_coordinates_agree stdDigests (PrivateKey.mk keyShortX 3)
      (PrivateKey.mk keyShortX 4) rfl rfl).1⟩

/-- C15 (defect of the code): the marker byte 0x02 is written for every
public key, whatever the parity of Y: the base point of P-256 has an odd Y
and is serialized with the marker 0x02. -/
theorem C15_marker_written_for_odd_Y :
    onP256 keyG = true ∧
    keyG.Y % 2 = 1 ∧
    (serialize keyG).head? = some 0x02 ∧
    (∀ publicKey : PublicKey, (serialize publicKey).head? = some 0x02) := by
  have hall : ∀ publicKey : PublicKey, (serialize publicKey).head? = some 0x02 := by
    intro publicKey
    rw [serialize_eq]
    rfl
  exact ⟨by decide, by decide, hall keyG, hall⟩

/-- C16: for a coordinate c below 2^256 the 32-byte field written by
`copy` is the minimal big-endian representation of c followed by zero
bytes, so it encodes c * 256^(32 - len c); it is the left-zero-padded form
of c exactly when c = 0 or c is at least 2^248. -/
theorem C16_field_is_right_padded (c : Nat) (hc : c < 2 ^ 256) :
    (∀ y, slice (serialize ⟨c, y⟩) 1 33 = copy (make 32) (Bytes c)) ∧
    (∀ x, slice (serialize ⟨x, c⟩) 33 65 = copy (make 32) (Bytes c)) ∧
    (copy (make 32) (Bytes c) = leftPadded 32 c ↔ c = 0 ∨ 2 ^ 248 ≤ c) ∧
    copy (make 32) (Bytes c) = Bytes c ++ List.replicate (32 - (Bytes c).length) 0 ∧
    bigEndian (copy (make 32) (Bytes c)) = c * 256 ^ (32 - (Bytes c).length) := by
  have hfield := field_eq c hc
  have hlen : (Bytes c).length ≤ 32 := (Bytes_length_le_iff c 32).mpr (by norm_num; omega)
  refine ⟨fun y => slice_serialize_X _, fun x => slice_serialize_Y _, ?_, hfield, ?_⟩
  · constructor
    · intro heq
      by_contra hcon
      push_neg at hcon
      obtain ⟨h0, h248⟩ := hcon
      have hlen31 : (Bytes c).length ≤ 31 :=
        (Bytes_length_le_iff c 31).mpr (by norm_num; omega)
      have hhead := Bytes_head_ne_zero c h0
      rw [hfield, leftPadded] at heq
      have hpos : 32 - (Bytes c).length = (31 - (Bytes c).length) + 1 := by omega
      cases hb : Bytes c with
      | nil =>
        have hlt := (Bytes_length_le_iff c 0).mp (by rw [hb]; exact Nat.le_refl 0)
        norm_num at hlt
        exact h0 hlt
      | cons b t =>
        rw [hb] at hhead heq hpos
        rw [hpos, List.replicate_succ] at heq
        simp only [List.cons_append, List.cons.injEq] at heq
        apply hhead
        rw [heq.1]
        rfl
    · rintro (h0 | h248)
      · subst h0
        decide
      · have hlen32 : (Bytes c).length = 32 := by
          have hnot : ¬ (Bytes c).length ≤ 31 := by
            rw [Bytes_length_le_iff]
            norm_num
            omega
          omega
        rw [hfield, leftPadded, hlen32]
        simp
  · rw [hfield, bigEndian, List.reverse_append, List.reverse_replicate, Nat.ofDigits_append,
      ofDigits_replicate_zero, List.length_replicate, Bytes_eq_digits, List.reverse_reverse,
      Nat.ofDigits_digits, List.length_reverse]
    ring

/-- Witness of C16: the coordinate 5, whose field is the byte 5 followed
by 31 zero bytes. -/
theorem C16_field_is_right_padded_witness :
    5 < 2 ^ 256 ∧
    ¬ (copy (make 32) (Bytes 5) = leftPadded 32 5) ∧
    copy (make 32) (Bytes 5) = Bytes 5 ++ List.replicate (32 - (Bytes 5).length) 0 ∧
    bigEndian (copy (make 32) (Bytes 5)) = 5 * 256 ^ (32 - (Bytes 5).length) :=
  have h := C16_field_is_right_padded 5 (by norm_num)
  ⟨by norm_num, fun heq => by have := h.2.2.1.mp heq; omega, h.2.2.2.1, h.2.2.2.2⟩

/-- C17: every address of the pipeline begins with the character '1':
byte 0 of `comb8` is the version byte 0x00, which the Base58 encoding
renders as the character of index 0. -/
theorem C17_address_begins_with_one (H : Digests) (publicKey : PublicKey) :
    (derive H publicKey).comb8.head? = some 0 ∧
    alphabet.head? = some '1' ∧
    (derive H publicKey).address.data.head? = some '1' ∧
    (∀ privateKey : PrivateKey, ∃ address : String,
      main H (some privateKey) = Outcome.printed address ∧ address.data.head? = some '1') := by
  have hc : ∀ pk : PublicKey, (derive H pk).comb8 =
      0 :: ((derive H pk).digest3 ++ (derive H pk).checksum) := by
    intro pk
    rw [derive_comb8, derive_v4]
    rfl
  have ha : ∀ pk : PublicKey, (derive H pk).address.data.head? = some '1' := by
    intro pk
    show (Encode (derive H pk).comb8).data.head? = some '1'
    rw [hc]
    exact Encode_head_of_zero _
  refine ⟨?_, by decide, ha publicKey, fun privateKey => ⟨_, rfl, ha _⟩⟩
  rw [hc]
  rfl

/-- C18: for every 20-byte content digest and every 4-byte checksum the
Base58 encoding of the 25 bytes 0x00, digest, checksum has at least 25 and
at most 34 characters, all of the 58-character alphabet, none of which is
'0', 'O', 'I' or 'l'. -/
theorem C18_address_length_and_alphabet (d c : List Nat) (hd : d.length = 20)
    (hc : c.length = 4) (hdb : ∀ x ∈ d, x < 256) (hcb : ∀ x ∈ c, x < 256) :
    25 ≤ (Encode ([0] ++ d ++ c)).length ∧ (Encode ([0] ++ d ++ c)).length ≤ 34 ∧
    alphabet.length = 58 ∧
    (∀ ch ∈ (Encode ([0] ++ d ++ c)).data,
      ch ∈ alphabet ∧ ch ≠ '0' ∧ ch ≠ 'O' ∧ ch ≠ 'I' ∧ ch ≠ 'l') := by
  have hb : ∀ x ∈ [0] ++ d ++ c, x < 256 := by
    intro x hx
    simp only [List.mem_append, List.mem_singleton] at hx
    rcases hx with (hx | hx) | hx
    · omega
    · exact hdb x hx
    · exact hcb x hx
  have hlen : ([0] ++ d ++ c).length = 25 := by simp [hd, hc]
  have hbounds := Encode_length_bounds _ hb hlen rfl
  refine ⟨hbounds.1, hbounds.2, by decide, ?_⟩
  intro ch hch
  have hmem := Encode_mem_alphabet _ ch hch
  refine ⟨hmem, ?_, ?_, ?_, ?_⟩ <;>
  · intro heq
    rw [heq] at hmem
    revert hmem
    decide

/-- Witness of C18: the digest of 20 zero bytes with the checksum
0x94 0xa0 0x09 0x11. -/
theorem C18_address_length_and_alphabet_witness :
    (List.replicate 20 0).length = 20 ∧ [0x94, 0xa0, 0x09, 0x11].length = 4 ∧
    25 ≤ (Encode ([0] ++ List.replicate 20 0 ++ [0x94, 0xa0, 0x09, 0x11])).length ∧
    (Encode ([0] ++ List.replicate 20 0 ++ [0x94, 0xa0, 0x09, 0x11])).length ≤ 34 :=
  have h := C18_address_length_and_alphabet (List.replicate 20 0) [0x94, 0xa0, 0x09, 0x11]
    (by decide) (by decide) (by decide) (by decide)
  ⟨by decide, by decide, h.1, h.2.1⟩

end BitcoinAddress
